import Mathlib

/-!
Verification development for the pi-gitnexus extension.

The definitions below are a shallow embedding of the TypeScript sources
`src/gitnexus.ts`, `src/mcp-client.ts`, `src/tools.ts` and the tool-result
hook of `src/index.ts`.  JavaScript strings are modelled as Lean `String`
(lists of characters), JS `null`/`undefined`-able values as `Option`,
Node's `path` helpers (`basename`, `extname`, `resolve`) are re-implemented
with POSIX semantics, and the asynchronous parts (child processes, timers)
are modelled by explicit outcome/event types.
-/

/-- Maximum output characters returned to the LLM (`MAX_OUTPUT_CHARS = 8 * 1024`). -/
def MAX_OUTPUT_CHARS : Nat := 8 * 1024

/-- JS `s.slice(0, n)` on a string: the first `n` characters. -/
def jsSlice (s : String) (n : Nat) : String := String.mk (s.toList.take n)

/-- JS `s.trim()`: drop leading and trailing whitespace. -/
def jsTrim (s : String) : String :=
  String.mk (((s.toList.dropWhile Char.isWhitespace).reverse.dropWhile Char.isWhitespace).reverse)

/-- Node `path.basename` (POSIX): the final path segment, trailing slashes dropped. -/
def basename (p : String) : String :=
  let cs := p.toList
  let rev := cs.reverse.dropWhile (fun c => c = '/')
  if rev.isEmpty then (if cs.isEmpty then "" else "/")
  else String.mk ((rev.takeWhile (fun c => c ≠ '/')).reverse)

/-- Index of the last `'.'` in a character list, if any. -/
def lastIndexOfDot (cs : List Char) : Option Nat :=
  match (cs.reverse).findIdx? (fun c => c = '.') with
  | none => none
  | some j => some (cs.length - 1 - j)

/-- Node `path.extname` (POSIX): from the last dot of the basename to the end;
empty for dotfiles (leading dot) and for `".."`. -/
def extname (p : String) : String :=
  let b := basename p
  if b = ".." then ""
  else
    match lastIndexOfDot b.toList with
    | none => ""
    | some 0 => ""
    | some i => String.mk (b.toList.drop i)

/-- JS word character, the `\w` class: ASCII letters, digits, underscore. -/
def isWordChar (c : Char) : Bool := c.isAlphanum || c = '_'

/-- JS `s.replace(new RegExp "\.\w+$", "")`: strip one trailing dot-extension. -/
def stripDotWordSuffix (s : String) : String :=
  let rev := s.toList.reverse
  let w := rev.takeWhile isWordChar
  if w.isEmpty then s
  else
    match rev.drop w.length with
    | '.' :: rest => String.mk rest.reverse
    | _ => s

/-- Membership in the regex-metacharacter set stripped by the extension. -/
def isRegexMeta (c : Char) : Bool :=
  c = '\\' || c = '^' || c = '$' || c = '.' || c = '*' || c = '+' || c = '?' ||
  c = '(' || c = ')' || c = '[' || c = ']' || c = '\x7b' || c = '\x7d' || c = '|'

/-- Strip every regex metacharacter from a string. -/
def stripRegexMeta (s : String) : String :=
  String.mk (s.toList.filter (fun c => !(isRegexMeta c)))

/-- Membership in the glob-wildcard set stripped by the extension. -/
def isGlobChar (c : Char) : Bool :=
  c = '*' || c = '?' || c = '[' || c = ']' || c = '\x7b' || c = '\x7d'

/-- Strip every glob wildcard character from a string. -/
def stripGlobChars (s : String) : String :=
  String.mk (s.toList.filter (fun c => !(isGlobChar c)))

/-- JS `s.startsWith(t)`, by characters. -/
def jsStartsWith (s t : String) : Bool := s.toList.take t.toList.length == t.toList

/-- Quote character: single or double quote. -/
def isQuoteChar (c : Char) : Bool := c = '\x27' || c = '\x22'

/-- JS `s.replace(new RegExp "['\x22]", "")` (global): strip quote characters. -/
def stripQuotes (s : String) : String :=
  String.mk (s.toList.filter (fun c => !(isQuoteChar c)))

/-- Helper for `splitWS`: walk the characters tracking whether the previous
character was whitespace, closing a field at each whitespace run. -/
def splitWSGo : List Char → List Char → Bool → List String
  | [], cur, _ => [String.mk cur.reverse]
  | c :: rest, cur, prevWS =>
    if c.isWhitespace then
      if prevWS then splitWSGo rest cur true
      else String.mk cur.reverse :: splitWSGo rest [] true
    else splitWSGo rest (c :: cur) false

/-- JS `s.split(new RegExp "\s+")`: split on maximal whitespace runs, keeping
an empty leading (resp. trailing) field when the string starts (resp. ends)
with whitespace. -/
def splitWS (s : String) : List String := splitWSGo s.toList [] false

/-- Helper for `jsSplit`: accumulate the current field, closing it at each
separator. -/
def jsSplitGo (sep : Char) : List Char → List Char → List String
  | [], cur => [String.mk cur.reverse]
  | c :: rest, cur =>
    if c = sep then String.mk cur.reverse :: jsSplitGo sep rest []
    else jsSplitGo sep rest (c :: cur)

/-- JS `s.split(sep)` for a single-character separator: fields between
separators, keeping empty fields (so a trailing separator yields a final
empty field, and the empty string yields one empty field). -/
def jsSplit (s : String) (sep : Char) : List String := jsSplitGo sep s.toList []

/-- File extensions worth augmenting (`CODE_EXTENSIONS` in `gitnexus.ts`). -/
def CODE_EXTENSIONS : List String :=
  [".sol", ".ts", ".tsx", ".js", ".jsx", ".py", ".go", ".rs", ".java",
   ".kt", ".swift", ".c", ".cpp", ".h", ".hpp", ".cs", ".rb", ".php",
   ".vy", ".fe", ".huff"]

/-- Structured tool input: the fields `extractPattern` probes, each `none`
when absent or not a string in the original dynamic object. -/
structure ToolInput where
  pattern : Option String
  glob : Option String
  path : Option String
  command : Option String
deriving Repr, DecidableEq

/-- The bash-command token scan of `extractPattern` (`gitnexus.ts` lines
109-148): one pass over the whitespace-split tokens with the two flags
`foundCmd` (inside a grep/rg invocation) and `foundFileCmd` (inside a
cat/head/tail/less/wc invocation); the first rule that fires ends the scan. -/
def bashScan : List String → Bool → Bool → Option String
  | [], _, _ => none
  | tok :: rest, foundCmd, foundFileCmd =>
    if tok = "grep" || tok = "rg" then bashScan rest true false
    else if foundCmd then
      if jsStartsWith tok "-" then bashScan rest foundCmd foundFileCmd
      else some (stripRegexMeta (stripQuotes tok))
    else if tok = "cat" || tok = "head" || tok = "tail" || tok = "less" || tok = "wc" then
      bashScan rest false true
    else if foundFileCmd then
      if jsStartsWith tok "-" then bashScan rest foundCmd foundFileCmd
      else
        let unquoted := stripQuotes tok
        if CODE_EXTENSIONS.contains (extname unquoted) then
          some (stripDotWordSuffix (basename unquoted))
        else none
    else if tok = "find" then bashScan rest false false
    else if tok = "-name" || tok = "-iname" then
      match rest with
      | nxt :: _ =>
        if nxt = "" then bashScan rest foundCmd foundFileCmd
        else
          let seg := stripGlobChars (stripDotWordSuffix (basename (stripQuotes nxt)))
          if 3 ≤ seg.length then some seg else none
      | [] => bashScan rest foundCmd foundFileCmd
    else bashScan rest foundCmd foundFileCmd

/-- The `extractPattern` function of `gitnexus.ts`: the primary search
pattern of a tool invocation, `none` if missing or shorter than 3 characters. -/
def extractPattern (toolName : String) (input : ToolInput) : Option String :=
  let pattern : Option String :=
    if toolName = "grep" then
      match input.pattern with
      | some raw => if raw = "" then none else some (stripRegexMeta raw)
      | none => none
    else if toolName = "find" then
      let raw : Option String :=
        match input.pattern with
        | some s => some s
        | none =>
          match input.glob with
          | some s => some s
          | none => input.path
      match raw with
      | some r =>
        if r = "" then none
        else
          let seg := stripGlobChars (stripDotWordSuffix (basename r))
          if seg = "" then none else some seg
      | none => none
    else if toolName = "bash" then
      bashScan (splitWS (input.command.getD "")) false false
    else if toolName = "read" then
      match input.path with
      | some raw =>
        if raw = "" then none
        else if CODE_EXTENSIONS.contains (extname raw) then
          some (stripDotWordSuffix (basename raw))
        else none
      | none => none
    else none
  match pattern with
  | some p => if p.length < 3 then none else some p
  | none => none

/-- Content block of a tool result (`{ type, text? }`). -/
structure ContentBlock where
  type : String
  text : Option String
deriving Repr, DecidableEq

/-- Join the text of all content blocks with newlines (`content.map(c => c.text ?? '').join('\n')`). -/
def contentText (content : List ContentBlock) : String :=
  String.intercalate "\n" (content.map (fun c => c.text.getD ""))

/-- One step of `extractFilesFromReadMany`'s inner `add` closure: skip
non-code extensions, derive the extension-stripped basename, skip patterns
shorter than 3 characters or already seen, otherwise record the pair.
State is `(seen, results)`. -/
def rmStep (st : List String × List (String × String)) (filePath : String) :
    List String × List (String × String) :=
  if (CODE_EXTENSIONS.contains (extname filePath)) = false then st
  else if (stripDotWordSuffix (basename filePath)).length < 3 ∨
      (st.1.contains (stripDotWordSuffix (basename filePath))) = true then st
  else (stripDotWordSuffix (basename filePath) :: st.1,
    st.2 ++ [(filePath, stripDotWordSuffix (basename filePath))])

/-- Match of the fallback regex `^@(.+)$` on one line, returning the trimmed
captured path. -/
def matchAtLine (line : String) : Option String :=
  match line.toList with
  | '@' :: rest => if rest.isEmpty then none else some (jsTrim (String.mk rest))
  | _ => none

/-- The `extractFilesFromReadMany` function of `gitnexus.ts`: `(path, pattern)`
pairs from a `read_many` input.  `files` is `some entries` when `input.files`
is an array, each entry being its `path` field when that is a string; the
fallback scans `@path` lines of the result content when the input yielded
no results. -/
def extractFilesFromReadMany (files : Option (List (Option String)))
    (content : List ContentBlock) : List (String × String) :=
  let st1 := (files.getD []).foldl
    (fun st f => match f with | some p => rmStep st p | none => st)
    (([], []) : List String × List (String × String))
  if st1.2.isEmpty then
    ((jsSplit (contentText content) '\n').foldl
      (fun st line => match matchAtLine line with | some p => rmStep st p | none => st) st1).2
  else st1.2

/-- Match of `^([^\n:]+\.\w+):\d+:` on one line: the segment before the first
colon must end in a dot followed by word characters (with at least one
character before the dot), and be followed by `:digits:`. -/
def matchGrepLine (line : String) : Option String :=
  let cs := line.toList
  let seg := cs.takeWhile (fun c => c ≠ ':')
  match cs.drop seg.length with
  | ':' :: rest1 =>
    let ds := rest1.takeWhile Char.isDigit
    if ds.isEmpty then none
    else
      match rest1.drop ds.length with
      | ':' :: _ =>
        match lastIndexOfDot seg with
        | some i =>
          if 1 ≤ i ∧ (seg.drop (i+1)) ≠ [] ∧ (seg.drop (i+1)).all isWordChar
          then some (String.mk seg) else none
        | none => none
      | _ => none
  | _ => none

/-- Loop of `extractFilePatternsFromContent`: scan the lines, record first
occurrences of qualifying basenames, stop once `limit` results are collected
(the stop check runs only on lines that matched the regex, as in the source). -/
def efpGo (limit : Nat) : List String → List String → List String → List String
  | [], _, results => results
  | line :: rest, seen, results =>
    match matchGrepLine line with
    | none => efpGo limit rest seen results
    | some seg =>
      let base := stripDotWordSuffix (basename seg)
      let st2 :=
        if 3 ≤ base.length ∧ (seen.contains base) = false
        then (base :: seen, results ++ [base])
        else (seen, results)
      if limit ≤ st2.2.length then st2.2
      else efpGo limit rest st2.1 st2.2

/-- The `extractFilePatternsFromContent` function of `gitnexus.ts`: up to
`limit` unique extension-stripped basenames from grep-style output lines. -/
def extractFilePatternsFromContent (content : List ContentBlock) (limit : Nat) : List String :=
  efpGo limit (jsSplit (contentText content) '\n') [] []

/-- Path separator of the modelled (POSIX) platform, Node's `path.sep`. -/
def pathSep : String := "/"

/-- Node `path.resolve` segment normalization: drop empty and `"."` segments,
let `".."` pop the previous segment (no-op at the root). -/
def normalizeSegs (segs : List String) : List String :=
  segs.foldl (fun acc seg =>
    if seg = "" ∨ seg = "." then acc
    else if seg = ".." then acc.dropLast
    else acc ++ [seg]) []

/-- Node `path.resolve(cwd, file)` for an absolute `cwd` (POSIX). -/
def resolvePath (cwd : String) (file : String) : String :=
  let full := if jsStartsWith file "/" then file else cwd ++ "/" ++ file
  "/" ++ String.intercalate "/" (normalizeSegs (jsSplit full '/'))

/-- The `safeResolvePath` function of `gitnexus.ts`: the resolved absolute
path when it stays within `cwd`, otherwise `none`. -/
def safeResolvePath (file : String) (cwd : String) : Option String :=
  let resolved := resolvePath cwd file
  if jsStartsWith resolved (cwd ++ pathSep) ∨ resolved = cwd then some resolved else none

/-- Augment subprocess timeout in milliseconds (`AUGMENT_TIMEOUT`). -/
def AUGMENT_TIMEOUT : Nat := 8000

/-- First event deciding a `runAugment` call: the 8-second timer fired first,
the child closed with an exit code and accumulated stderr output, or the
spawn errored. -/
inductive AugmentEvent where
  | timeout : AugmentEvent
  | closed : Option Int → String → AugmentEvent
  | errored : AugmentEvent
deriving Repr, DecidableEq

/-- Observable outcome of `runAugment`: the resolved string and whether a
SIGTERM was sent to the child. -/
structure AugmentOutcome where
  result : String
  sigtermSent : Bool
deriving Repr, DecidableEq

/-- The `runAugment` function of `gitnexus.ts`, as a function of the first
event that fires (the `done` flag makes later events no-ops): timeout kills
the child and resolves empty; spawn error resolves empty; exit code 0
resolves the trimmed, truncated output; any other exit code resolves empty. -/
def runAugment (ev : AugmentEvent) : AugmentOutcome :=
  match ev with
  | .timeout => ⟨"", true⟩
  | .errored => ⟨"", false⟩
  | .closed code output =>
    ⟨if code = some 0 then jsSlice (jsTrim output) MAX_OUTPUT_CHARS else "", false⟩

/-- JSON-RPC error object. -/
structure RpcError where
  code : Int
  message : String
deriving Repr, DecidableEq

/-- MCP content block (`{ type, text?, isError? }`). -/
structure McpContent where
  type : String
  text : Option String
  isError : Option Bool
deriving Repr, DecidableEq

/-- MCP tool result (`{ content, isError? }`); `content` is `none` when the
field is missing from the response. -/
structure McpToolResult where
  content : Option (List McpContent)
  isError : Option Bool
deriving Repr, DecidableEq

/-- Parsed JSON-RPC response (`{ id?, result?, error? }`). -/
structure JsonRpcResponse where
  id : Option Nat
  result : Option McpToolResult
  error : Option RpcError
deriving Repr, DecidableEq

/-- Filter of `callTool`'s resolve handler: keep blocks of `text` type that
are not error-flagged and have truthy (non-empty) text. -/
def contentBlockKept (c : McpContent) : Bool :=
  c.type == "text" && !(c.isError.getD false) && c.text.getD "" != ""

/-- Newline-join of the kept blocks' text. -/
def joinedText (cs : List McpContent) : String :=
  String.intercalate "\n" ((cs.filter contentBlockKept).map (fun c => c.text.getD ""))

/-- Resolve handler of `GitNexusMcpClient.callTool` on a parsed response:
a top-level `error`, a missing `result`, a missing `content` field, or a set
result-level `isError` flag yield `""`; otherwise the result is the
`[GitNexus]` label plus the truncated joined text.  An empty `content` array
is truthy in JavaScript, so it takes the second branch. -/
def interpretResponse (msg : JsonRpcResponse) : String :=
  match msg.error with
  | some _ => ""
  | none =>
    match msg.result with
    | none => ""
    | some result =>
      match result.content with
      | none => ""
      | some cs =>
        if result.isError.getD false then ""
        else "[GitNexus]\n" ++ jsSlice (joinedText cs) MAX_OUTPUT_CHARS

/-- State of the transport's stdout handler: the partial-line buffer and the
ids with a registered pending request. -/
structure TransportState where
  buffer : String
  pending : List Nat
deriving Repr, DecidableEq

/-- Per-line logic of the stdout `data` handler.  `parse` models `JSON.parse`
combined with reading the `id` field: `none` for a parse failure, `some none`
for a message without a usable id, `some (some n)` for id `n`.  Returns the
updated pending set and the id resolved by this line, if any. -/
def processLine (parse : String → Option (Option Nat)) (pending : List Nat) (line : String) :
    List Nat × Option Nat :=
  if jsTrim line = "" then (pending, none)
  else
    match parse line with
    | none => (pending, none)
    | some none => (pending, none)
    | some (some n) =>
      if pending.contains n then (pending.erase n, some n) else (pending, none)

/-- The stdout `data` handler of `GitNexusMcpClient.ensureStarted`: append the
chunk to the buffer, split on newlines, keep the final partial segment as the
new buffer, and run `processLine` on every complete line.  Returns the new
state and the `(id, line)` resolutions in order. -/
def onData (parse : String → Option (Option Nat)) (st : TransportState) (chunk : String) :
    TransportState × List (Nat × String) :=
  let parts := jsSplit (st.buffer ++ chunk) '\n'
  let newBuf := (parts.getLast?).getD ""
  let step := parts.dropLast.foldl
    (fun (acc : List Nat × List (Nat × String)) line =>
      match processLine parse acc.1 line with
      | (p, some n) => (p, acc.2 ++ [(n, line)])
      | (p, none) => (p, acc.2))
    (st.pending, ([] : List (Nat × String)))
  (⟨newBuf, step.1⟩, step.2)

/-- Operations observable on the `GitNexusMcpClient` singleton that touch the
id counter or the pending map. -/
inductive ClientOp where
  | call : ClientOp
  | stop : ClientOp
  | procClose : ClientOp
  | response : Nat → ClientOp
deriving Repr, DecidableEq

/-- Counter/pending state of the client (`nextId` starts at 2; id 1 is
reserved for the initialize handshake). -/
structure ClientState where
  procAlive : Bool
  nextId : Nat
  pending : List Nat
deriving Repr, DecidableEq

/-- Initial state of the module-level `mcpClient` singleton. -/
def initialClient : ClientState := ⟨false, 2, []⟩

/-- One client operation: a steady-state call allocates `nextId` and bumps it;
`stop()` and the process `close` handler clear the pending map but leave
`nextId` untouched; a matched response removes its pending entry. -/
def stepClient (st : ClientState) : ClientOp → ClientState × Option Nat
  | .call => (⟨true, st.nextId + 1, st.pending ++ [st.nextId]⟩, some st.nextId)
  | .stop => (⟨false, st.nextId, []⟩, none)
  | .procClose => (⟨false, st.nextId, []⟩, none)
  | .response n => (⟨st.procAlive, st.nextId, st.pending.erase n⟩, none)

/-- Run a sequence of client operations, collecting the allocated request ids
in order. -/
def runOps (st : ClientState) : List ClientOp → ClientState × List Nat
  | [] => (st, [])
  | op :: ops =>
    let s1 := stepClient st op
    let s2 := runOps s1.1 ops
    (s2.1, (match s1.2 with | some n => [n] | none => []) ++ s2.2)

/-- Accumulator form of JS `new Set(list)` iteration order: first occurrences
of each string, in order. -/
def dedupFirstAux (seen : List String) : List String → List String
  | [] => []
  | x :: xs =>
    if seen.contains x then dedupFirstAux seen xs
    else x :: dedupFirstAux (x :: seen) xs

/-- First occurrences of each string, in order (`[...new Set(list)]`). -/
def dedupFirst (l : List String) : List String := dedupFirstAux [] l

/-- Candidate list of the hook's single-pattern branch: the primary pattern
from the input plus up to two secondary basenames from the result content
(search/shell tools only), deduplicated by exact string equality. -/
def singleCandidates (toolName : String) (input : ToolInput) (content : List ContentBlock) :
    List String :=
  let primary := extractPattern toolName input
  let secondary :=
    if toolName = "grep" || toolName = "bash"
    then extractFilePatternsFromContent content 2 else []
  dedupFirst (primary.toList ++ secondary)

/-- Dispatch step of the hook: drop candidates already in the session dedup
cache and cap the batch (`fresh.slice(0, k)`; `k = 3` in the single-pattern
branch). -/
def dispatchBatch (cache : List String) (cands : List String) (k : Nat) : List String :=
  (cands.filter (fun p => !(cache.contains p))).take k

/-- Fresh file batch of the hook's `read_many` branch: extracted pairs whose
pattern is not in the dedup cache, capped at 5. -/
def readManyFresh (cache : List String) (files : Option (List (Option String)))
    (content : List ContentBlock) : List (String × String) :=
  ((extractFilesFromReadMany files content).filter
    (fun f => !(cache.contains f.2))).take 5

/-- Last `/`-separated segment of a path (`path.split('/').pop()`). -/
def lastPathSeg (p : String) : String := ((jsSplit p '/').getLast?).getD ""

/-- Label of the `read_many` augmentation block: the file name when exactly
one section survived, the bare `[GitNexus]` label otherwise. -/
def readManyLabel (sections : List ((String × String) × String)) : String :=
  match sections with
  | [s] => "[GitNexus: " ++ lastPathSeg s.1.1 ++ "]"
  | _ => "[GitNexus]"

/-- Body of the `read_many` augmentation block: the single output, or one
`### name` subsection per surviving file. -/
def readManyBody (sections : List ((String × String) × String)) : String :=
  match sections with
  | [s] => s.2
  | _ => String.intercalate "\n\n"
      (sections.map (fun s => "### " ++ lastPathSeg s.1.1 ++ "\n" ++ s.2))

/-- Content returned by the hook's `read_many` branch: the original blocks
followed by one new text block. -/
def readManyReturn (orig : List ContentBlock) (sections : List ((String × String) × String)) :
    List ContentBlock :=
  orig ++ [⟨"text", some ("\n\n" ++ readManyLabel sections ++ "\n" ++ readManyBody sections)⟩]

/-- Content returned by the hook's single-pattern branch: the original blocks
followed by one new labeled text block. -/
def singleReturn (orig : List ContentBlock) (toRun : List String) (combined : String) :
    List ContentBlock :=
  orig ++ [⟨"text",
    some ("\n\n[GitNexus: " ++ String.intercalate ", " toRun ++ "]\n" ++ combined)⟩]

/-- Outcome of the `gitnexus_context` tool's file-parameter validation step. -/
inductive ContextAction where
  | invalidPath : ContextAction
  | callBackend : Option String → ContextAction
deriving Repr, DecidableEq

/-- File-parameter validation of the `gitnexus_context` tool (`tools.ts`):
no (or falsy) `file` passes no file through; a `file` that fails
`safeResolvePath` answers with the invalid-path message instead of calling
the backend; otherwise the resolved path is forwarded. -/
def contextFileStep (file : Option String) (cwd : String) : ContextAction :=
  match file with
  | none => .callBackend none
  | some f =>
    if f = "" then .callBackend none
    else
      match safeResolvePath f cwd with
      | none => .invalidPath
      | some safe => .callBackend (some safe)

/-- Fallback phase of `extractFilesFromReadMany` in isolation: the same
`rmStep` accumulation run over the `@path` lines of the result content,
starting from the empty state. -/
def extractFromAtLines (content : List ContentBlock) : List (String × String) :=
  ((jsSplit (contentText content) '\n').foldl
    (fun st line => match matchAtLine line with | some p => rmStep st p | none => st)
    (([], []) : List String × List (String × String))).2

/-! Helper lemmas shared by the claim theorems. -/

lemma strMk_toList (s : String) : String.mk s.toList = s := rfl

lemma length_mk (l : List Char) : (String.mk l).length = l.length := rfl

lemma jsSlice_length_le (s : String) (n : Nat) : (jsSlice s n).length ≤ n := by
  simp only [jsSlice, length_mk]
  exact List.length_take_le n s.toList

lemma runOps_ids (ops : List ClientOp) : ∀ st : ClientState,
    (runOps st ops).2 = List.range' st.nextId (ops.count ClientOp.call) ∧
    (runOps st ops).1.nextId = st.nextId + ops.count ClientOp.call := by
  induction ops with
  | nil => intro st; simp [runOps]
  | cons op ops ih =>
    intro st
    cases op <;>
      simp [runOps, stepClient, List.count_cons, (ih _).1, (ih _).2, List.range'_succ,
        Nat.add_comm, Nat.add_assoc, Nat.add_left_comm]

/-- C6: `runAugment` always resolves and never rejects: the timeout path sends
SIGTERM and resolves to the empty string, spawn errors and non-zero exit codes
resolve to the empty string, and a zero exit code resolves to the trimmed
output truncated to the `MAX_OUTPUT_CHARS` budget, whose length never exceeds
that budget. -/
theorem C6_runAugment_total (code : Option Int) (output : String) :
    runAugment AugmentEvent.timeout = ⟨"", true⟩ ∧
    runAugment AugmentEvent.errored = ⟨"", false⟩ ∧
    (code ≠ some 0 → runAugment (AugmentEvent.closed code output) = ⟨"", false⟩) ∧
    runAugment (AugmentEvent.closed (some 0) output) =
      ⟨jsSlice (jsTrim output) MAX_OUTPUT_CHARS, false⟩ ∧
    (runAugment (AugmentEvent.closed code output)).result.length ≤ MAX_OUTPUT_CHARS := by
  refine ⟨rfl, rfl, ?_, ?_, ?_⟩
  · intro h
    simp [runAugment, h]
  · simp [runAugment]
  · by_cases h : code = some 0
    · simpa [runAugment, h] using jsSlice_length_le (jsTrim output) MAX_OUTPUT_CHARS
    · simp [runAugment, h]

/-- C6 witness: a non-zero exit code resolves to the empty string without a
SIGTERM. -/
theorem C6_runAugment_total_witness :
    runAugment (AugmentEvent.closed (some 1) "boom") = ⟨"", false⟩ :=
  (C6_runAugment_total (some 1) "boom").2.2.1 (by decide)

/-- C7: both augmentation branches are strictly additive: the returned content
is exactly the original blocks, unchanged and in order, with one new text
block appended at the end. -/
theorem C7_append_only (orig : List ContentBlock)
    (sections : List ((String × String) × String))
    (toRun : List String) (combined : String) :
    (∃ b : ContentBlock, b.type = "text" ∧ readManyReturn orig sections = orig ++ [b]) ∧
    (∃ b : ContentBlock, b.type = "text" ∧ singleReturn orig toRun combined = orig ++ [b]) :=
  ⟨⟨_, rfl, rfl⟩, ⟨_, rfl, rfl⟩⟩

/-- C10: the request-id counter starts at 2 and each steady-state call
allocates the next consecutive id; `stop()` and process exit never reset it,
so across any operation sequence the allocated ids are exactly
`2, 3, …, k+1`, strictly increasing, unique, and never the reserved
handshake id 1. -/
theorem C10_request_ids (ops : List ClientOp) :
    (runOps initialClient ops).2 = List.range' 2 (ops.count ClientOp.call) ∧
    (runOps initialClient ops).1.nextId = 2 + ops.count ClientOp.call ∧
    (runOps initialClient ops).2.Nodup ∧
    1 ∉ (runOps initialClient ops).2 ∧
    List.Chain' (· < ·) (runOps initialClient ops).2 := by
  obtain ⟨h1, h2⟩ := runOps_ids ops initialClient
  have e : initialClient.nextId = 2 := rfl
  rw [e] at h1 h2
  refine ⟨h1, h2, ?_, ?_, ?_⟩
  · rw [h1]; exact List.nodup_range' _ _
  · rw [h1]
    intro hmem
    rw [List.mem_range'_1] at hmem
    omega
  · rw [h1]
    exact (List.pairwise_lt_range' _ _).chain'

/-- C8: `safeResolvePath` returns the resolved path exactly when it equals
`cwd` or lies under `cwd` plus the path separator, and `none` for every
escaping path; the `gitnexus_context` tool then answers with the invalid-path
message instead of calling the backend. -/
theorem C8_path_guard (file cwd : String) :
    (∀ r, safeResolvePath file cwd = some r →
      r = resolvePath cwd file ∧ (jsStartsWith r (cwd ++ pathSep) = true ∨ r = cwd)) ∧
    (¬ (jsStartsWith (resolvePath cwd file) (cwd ++ pathSep) = true ∨
        resolvePath cwd file = cwd) →
      safeResolvePath file cwd = none) ∧
    (file ≠ "" → safeResolvePath file cwd = none →
      contextFileStep (some file) cwd = ContextAction.invalidPath) ∧
    (∀ r, file ≠ "" → safeResolvePath file cwd = some r →
      contextFileStep (some file) cwd = ContextAction.callBackend (some r)) := by
  refine ⟨?_, ?_, ?_, ?_⟩
  · intro r h
    simp only [safeResolvePath] at h
    split at h
    · cases h
      exact ⟨rfl, by assumption⟩
    · cases h
  · intro hc
    simp only [safeResolvePath]
    split
    · exact absurd (by assumption) hc
    · rfl
  · intro hne hnone
    simp [contextFileStep, hne, hnone]
  · intro r hne hsome
    simp [contextFileStep, hne, hsome]

/-- C8 witness: with `cwd = "/a/b"`, the file `"../bfoo"` resolves to the
sibling `"/a/bfoo"`, which shares `cwd` as a string prefix but escapes it, so
the guard rejects it and the tool answers with the invalid-path message;
a file inside `cwd` is forwarded resolved. -/
theorem C8_path_guard_witness :
    safeResolvePath "../bfoo" "/a/b" = none ∧
    contextFileStep (some "../bfoo") "/a/b" = ContextAction.invalidPath ∧
    contextFileStep (some "sub/x.ts") "/a/b" =
      ContextAction.callBackend (some "/a/b/sub/x.ts") := by
  have h1 := (C8_path_guard "../bfoo" "/a/b").2.1 (by decide)
  refine ⟨h1, (C8_path_guard "../bfoo" "/a/b").2.2.1 (by decide) h1, ?_⟩
  exact (C8_path_guard "sub/x.ts" "/a/b").2.2.2 "/a/b/sub/x.ts" (by decide) (by decide)

/-- C9: every non-empty result of `callTool`'s resolve handler is the
`[GitNexus]` label line followed by the joined text truncated to the
`MAX_OUTPUT_CHARS` budget. -/
theorem C9_result_shape (msg : JsonRpcResponse) (h : interpretResponse msg ≠ "") :
    ∃ r cs, msg.error = none ∧ msg.result = some r ∧ r.content = some cs ∧
      interpretResponse msg = "[GitNexus]\n" ++ jsSlice (joinedText cs) MAX_OUTPUT_CHARS ∧
      (jsSlice (joinedText cs) MAX_OUTPUT_CHARS).length ≤ MAX_OUTPUT_CHARS := by
  obtain ⟨mid, result, error⟩ := msg
  cases error with
  | some e => exact absurd rfl h
  | none =>
    cases result with
    | none => exact absurd rfl h
    | some r =>
      obtain ⟨content, isError⟩ := r
      cases content with
      | none => exact absurd rfl h
      | some cs =>
        by_cases he : (Option.getD isError false) = true
        · exact absurd (by simp [interpretResponse, he]) h
        · refine ⟨⟨some cs, isError⟩, cs, rfl, rfl, rfl, ?_, jsSlice_length_le _ _⟩
          simp [interpretResponse, he]

/-- C9 witness: a response whose result has one plain text block yields the
labeled, truncated text. -/
theorem C9_result_shape_witness :
    ∃ r cs,
      (JsonRpcResponse.mk (some 2) (some ⟨some [⟨"text", some "hi", none⟩], none⟩) none).error
        = none ∧
      (JsonRpcResponse.mk (some 2) (some ⟨some [⟨"text", some "hi", none⟩], none⟩) none).result
        = some r ∧
      r.content = some cs ∧
      interpretResponse ⟨some 2, some ⟨some [⟨"text", some "hi", none⟩], none⟩, none⟩ =
        "[GitNexus]\n" ++ jsSlice (joinedText cs) MAX_OUTPUT_CHARS ∧
      (jsSlice (joinedText cs) MAX_OUTPUT_CHARS).length ≤ MAX_OUTPUT_CHARS :=
  C9_result_shape ⟨some 2, some ⟨some [⟨"text", some "hi", none⟩], none⟩, none⟩ (by decide)

/-- C1 counterexample: a response whose result carries an empty content list
does not yield an empty string — the empty array is truthy in JavaScript, so
the handler resolves to the bare `[GitNexus]` label line, which is non-empty. -/
theorem C1_empty_content_counterexample :
    interpretResponse ⟨some 2, some ⟨some [], none⟩, none⟩ = "[GitNexus]\n" ∧
    "[GitNexus]\n" ≠ "" := ⟨rfl, by decide⟩

/-- C1 amended: the handler yields the empty string when the response carries
a top-level error, when the result or its content field is missing, or when
`result.isError` is set; otherwise — including for an empty content list — it
yields the `[GitNexus]` label line followed by the newline-joined text of the
text-kind blocks that are not error-flagged and have non-empty text, truncated
to `MAX_OUTPUT_CHARS`. -/
theorem C1_callTool_interpretation (msg : JsonRpcResponse) :
    (msg.error.isSome = true → interpretResponse msg = "") ∧
    (msg.result = none → interpretResponse msg = "") ∧
    (∀ r, msg.result = some r → r.content = none → interpretResponse msg = "") ∧
    (∀ r, msg.result = some r → r.isError = some true → interpretResponse msg = "") ∧
    (∀ r cs, msg.error = none → msg.result = some r → r.content = some cs →
      r.isError ≠ some true →
      interpretResponse msg = "[GitNexus]\n" ++ jsSlice (joinedText cs) MAX_OUTPUT_CHARS) := by
  obtain ⟨mid, result, error⟩ := msg
  refine ⟨?_, ?_, ?_, ?_, ?_⟩
  · intro h
    cases error with
    | some e => rfl
    | none => simp at h
  · intro h
    subst h
    cases error <;> rfl
  · intro r hr hc
    subst hr
    cases error with
    | some e => rfl
    | none =>
      obtain ⟨content, isError⟩ := r
      cases hc
      rfl
  · intro r hr he
    subst hr
    cases error with
    | some e => rfl
    | none =>
      obtain ⟨content, isError⟩ := r
      cases he
      cases content with
      | none => rfl
      | some cs => simp [interpretResponse]
  · intro r cs herr hr hc hne
    subst hr
    subst herr
    obtain ⟨content, isError⟩ := r
    cases hc
    have hb : Option.getD isError false = false := by
      cases isError with
      | none => rfl
      | some b =>
        cases b with
        | true => exact absurd rfl hne
        | false => rfl
    simp [interpretResponse, hb]

/-- C1 amended witness: an empty content list yields the non-empty bare
label, and a singleton text block yields the labeled text. -/
theorem C1_callTool_interpretation_witness :
    interpretResponse ⟨some 2, some ⟨some [], none⟩, none⟩ =
      "[GitNexus]\n" ++ jsSlice (joinedText []) MAX_OUTPUT_CHARS ∧
    interpretResponse ⟨some 2, none, some ⟨1, "bad"⟩⟩ = "" :=
  ⟨(C1_callTool_interpretation ⟨some 2, some ⟨some [], none⟩, none⟩).2.2.2.2
      ⟨some [], none⟩ [] rfl rfl rfl (by decide),
   (C1_callTool_interpretation ⟨some 2, none, some ⟨1, "bad"⟩⟩).2.1 rfl⟩

lemma strMk_nil : String.mk [] = "" := rfl

lemma jsSplitGo_no_sep (sep : Char) (cs : List Char) (h : ∀ c ∈ cs, c ≠ sep) :
    ∀ cur, jsSplitGo sep (cs ++ [sep]) cur = [String.mk (cur.reverse ++ cs), ""] := by
  induction cs with
  | nil =>
    intro cur
    simp [jsSplitGo, strMk_nil]
  | cons c cs ih =>
    intro cur
    have hc : c ≠ sep := h c (List.mem_cons_self c cs)
    have step : jsSplitGo sep ((c :: cs) ++ [sep]) cur = jsSplitGo sep (cs ++ [sep]) (c :: cur) := by
      simp [jsSplitGo, hc]
    rw [step, ih (fun x hx => h x (List.mem_cons_of_mem c hx)) (c :: cur)]
    simp

lemma jsSplit_line_append (line : String) (h : ∀ c ∈ line.toList, c ≠ '\n') :
    jsSplit (line ++ "\n") '\n' = [line, ""] := by
  have he : (line ++ "\n").toList = line.toList ++ ['\n'] := rfl
  unfold jsSplit
  rw [he, jsSplitGo_no_sep '\n' line.toList h []]
  simp [strMk_toList]

/-- C2: the response-correlation logic of the stdout handler: a trimmed,
parseable line with id `N` resolves exactly the pending request `N` (removing
it and leaving every other pending id in place); a parseable line with an
unknown or missing id resolves nothing; an unparseable line is discarded; and
on a chunk forming one complete line the handler keeps an empty buffer and
emits exactly the resolutions of that line. -/
theorem C2_transport_correlation (parse : String → Option (Option Nat))
    (pending : List Nat) (line : String) (N : Nat) :
    (jsTrim line ≠ "" → parse line = some (some N) → N ∈ pending → pending.Nodup →
      processLine parse pending line = (pending.erase N, some N) ∧
      N ∉ pending.erase N ∧
      ∀ M ∈ pending, M ≠ N → M ∈ pending.erase N) ∧
    (parse line = some (some N) → N ∉ pending →
      processLine parse pending line = (pending, none)) ∧
    (parse line = some none → processLine parse pending line = (pending, none)) ∧
    (parse line = none → processLine parse pending line = (pending, none)) ∧
    (∀ st : TransportState, st.buffer = "" → (∀ c ∈ line.toList, c ≠ '\n') →
      onData parse st (line ++ "\n") =
        (⟨"", (processLine parse st.pending line).1⟩,
         match (processLine parse st.pending line).2 with
         | some n => [(n, line)]
         | none => [])) := by
  refine ⟨?_, ?_, ?_, ?_, ?_⟩
  · intro htrim hparse hmem hnodup
    refine ⟨by simp [processLine, htrim, hparse, hmem], ?_, ?_⟩
    · intro hbad
      exact absurd ((hnodup.mem_erase_iff.1 hbad).1) (by simp)
    · intro M hM hne
      exact (List.mem_erase_of_ne hne).2 hM
  · intro hparse hmem
    simp [processLine, hparse, hmem]
  · intro hparse
    simp [processLine, hparse]
  · intro hparse
    simp [processLine, hparse]
  · intro st hbuf hnl
    have hb : st.buffer ++ (line ++ "\n") = line ++ "\n" := by rw [hbuf]; rfl
    simp only [onData, hb, jsSplit_line_append line hnl]
    cases hp : processLine parse st.pending line with
    | mk p e =>
      cases e <;> simp [hp]

/-- C2 witness: with a parse oracle recognizing the line `"id 5"` as id 5 and
pending requests 5 and 7, the line resolves exactly request 5, and a one-line
chunk drives `onData` to that same resolution with an emptied buffer. -/
theorem C2_transport_correlation_witness :
    (processLine (fun s => if s = "id 5" then some (some 5) else none) [5, 7] "id 5" =
      (([5, 7] : List Nat).erase 5, some 5) ∧
      5 ∉ ([5, 7] : List Nat).erase 5 ∧
      ∀ M ∈ ([5, 7] : List Nat), M ≠ 5 → M ∈ ([5, 7] : List Nat).erase 5) ∧
    onData (fun s => if s = "id 5" then some (some 5) else none) ⟨"", [5, 7]⟩
        ("id 5" ++ "\n") = (⟨"", [7]⟩, [(5, "id 5")]) :=
  ⟨(C2_transport_correlation (fun s => if s = "id 5" then some (some 5) else none)
      [5, 7] "id 5" 5).1 (by decide) (by decide) (by decide) (by decide),
   ((C2_transport_correlation (fun s => if s = "id 5" then some (some 5) else none)
      [5, 7] "id 5" 5).2.2.2.2 ⟨"", [5, 7]⟩ rfl (by decide)).trans (by decide)⟩

/-- Well-formedness of one extracted `(path, pattern)` pair. -/
def rmGoodPair (pr : String × String) : Prop :=
  CODE_EXTENSIONS.contains (extname pr.1) = true ∧
  pr.2 = stripDotWordSuffix (basename pr.1) ∧ 3 ≤ pr.2.length

lemma rmStep_inv (st : List String × List (String × String)) (p : String)
    (h1 : ∀ q : String, q ∈ st.1 ↔ q ∈ st.2.map Prod.snd)
    (h2 : ∀ pr ∈ st.2, rmGoodPair pr)
    (h3 : (st.2.map Prod.snd).Nodup) :
    (∀ q : String, q ∈ (rmStep st p).1 ↔ q ∈ (rmStep st p).2.map Prod.snd) ∧
    (∀ pr ∈ (rmStep st p).2, rmGoodPair pr) ∧
    ((rmStep st p).2.map Prod.snd).Nodup := by
  unfold rmStep
  split
  · exact ⟨h1, h2, h3⟩
  · next hext =>
    split
    · exact ⟨h1, h2, h3⟩
    · next hguard =>
      push_neg at hguard
      obtain ⟨hlen, hseen⟩ := hguard
      have hextT : CODE_EXTENSIONS.contains (extname p) = true := by
        revert hext
        cases CODE_EXTENSIONS.contains (extname p) <;> simp
      have hnotin : stripDotWordSuffix (basename p) ∉ st.2.map Prod.snd := by
        rw [← h1]
        intro hmem
        exact hseen (by simpa [List.elem_iff] using hmem)
      refine ⟨?_, ?_, ?_⟩
      · intro q
        simp only [List.map_append, List.map_cons, List.map_nil, List.mem_append,
          List.mem_cons, List.mem_singleton, List.not_mem_nil, or_false]
        rw [h1 q]
        tauto
      · intro pr hpr
        rcases List.mem_append.1 hpr with hL | hR
        · exact h2 pr hL
        · have : pr = (p, stripDotWordSuffix (basename p)) := by simpa using hR
          subst this
          exact ⟨hextT, rfl, by simpa using hlen⟩
      · simp only [List.map_append, List.map_cons, List.map_nil]
        rw [List.nodup_append]
        exact ⟨h3, List.nodup_singleton _, by
          intro a ha hb
          simp only [List.mem_cons, List.not_mem_nil, or_false] at hb
          subst hb
          exact hnotin ha⟩

lemma rmFold_spec {α : Type}
    (step : (List String × List (String × String)) → α → List String × List (String × String))
    (hstep : ∀ st a, step st a = st ∨ ∃ p, step st a = rmStep st p)
    (l : List α) :
    ∀ st : List String × List (String × String),
      (∀ q : String, q ∈ st.1 ↔ q ∈ st.2.map Prod.snd) →
      (∀ pr ∈ st.2, rmGoodPair pr) →
      (st.2.map Prod.snd).Nodup →
      (∀ q : String, q ∈ (l.foldl step st).1 ↔ q ∈ (l.foldl step st).2.map Prod.snd) ∧
      (∀ pr ∈ (l.foldl step st).2, rmGoodPair pr) ∧
      ((l.foldl step st).2.map Prod.snd).Nodup := by
  induction l with
  | nil => intro st h1 h2 h3; exact ⟨h1, h2, h3⟩
  | cons a l ih =>
    intro st h1 h2 h3
    rw [List.foldl_cons]
    rcases hstep st a with h | ⟨p, hp⟩
    · rw [h]; exact ih st h1 h2 h3
    · rw [hp]
      obtain ⟨g1, g2, g3⟩ := rmStep_inv st p h1 h2 h3
      exact ih _ g1 g2 g3

lemma rmFold_facts (files : Option (List (Option String))) (content : List ContentBlock) :
    (∀ pr ∈ extractFilesFromReadMany files content, rmGoodPair pr) ∧
    ((extractFilesFromReadMany files content).map Prod.snd).Nodup := by
  unfold extractFilesFromReadMany
  have hstep1 : ∀ (st : List String × List (String × String)) (f : Option String),
      (match f with | some p => rmStep st p | none => st) = st ∨
      ∃ p, (match f with | some p => rmStep st p | none => st) = rmStep st p := by
    intro st f
    cases f with
    | none => exact Or.inl rfl
    | some p => exact Or.inr ⟨p, rfl⟩
  have hstep2 : ∀ (st : List String × List (String × String)) (line : String),
      (match matchAtLine line with | some p => rmStep st p | none => st) = st ∨
      ∃ p, (match matchAtLine line with | some p => rmStep st p | none => st) = rmStep st p := by
    intro st line
    cases matchAtLine line with
    | none => exact Or.inl rfl
    | some p => exact Or.inr ⟨p, rfl⟩
  have base :
      (∀ q : String, q ∈ (([], []) : List String × List (String × String)).1 ↔
        q ∈ (([], []) : List String × List (String × String)).2.map Prod.snd) ∧
      (∀ pr ∈ (([], []) : List String × List (String × String)).2, rmGoodPair pr) ∧
      ((([], []) : List String × List (String × String)).2.map Prod.snd).Nodup := by
    refine ⟨by simp, by simp, by simp⟩
  obtain ⟨b1, b2, b3⟩ := base
  obtain ⟨f1, f2, f3⟩ := rmFold_spec _ hstep1 (files.getD []) ([], []) b1 b2 b3
  dsimp only
  split
  · obtain ⟨g1, g2, g3⟩ := rmFold_spec _ hstep2 (jsSplit (contentText content) '\n') _ f1 f2 f3
    exact ⟨g2, g3⟩
  · exact ⟨f2, f3⟩

/-- C3 counterexample: `extractFilesFromReadMany` itself applies no batch cap —
six distinct code files yield six pairs, more than the batch limit of 5. -/
theorem C3_no_cap_counterexample :
    ¬ ((extractFilesFromReadMany
        (some [some "a1x.ts", some "a2x.ts", some "a3x.ts", some "a4x.ts",
               some "a5x.ts", some "a6x.ts"]) []).length ≤ 5) := by decide

/-- C3 amended: `extractFilesFromReadMany` returns pairs only for code-extension
paths, with the pattern the extension-stripped basename of length at least 3,
keeps only the first occurrence of each derived pattern, and falls back to
scanning `@path` result lines when the input carries no files list; the cap to
the batch limit of 5 is not applied by the extractor but by the hook, after
filtering against the session dedup cache. -/
theorem C3_read_many_extraction (files : Option (List (Option String)))
    (content : List ContentBlock) (cache : List String) :
    (∀ pr ∈ extractFilesFromReadMany files content,
      CODE_EXTENSIONS.contains (extname pr.1) = true ∧
      pr.2 = stripDotWordSuffix (basename pr.1) ∧ 3 ≤ pr.2.length) ∧
    ((extractFilesFromReadMany files content).map Prod.snd).Nodup ∧
    (files = none → extractFilesFromReadMany files content = extractFromAtLines content) ∧
    (readManyFresh cache files content).length ≤ 5 := by
  obtain ⟨hgood, hnodup⟩ := rmFold_facts files content
  refine ⟨hgood, hnodup, ?_, ?_⟩
  · intro hf
    subst hf
    rfl
  · unfold readManyFresh
    exact List.length_take_le _ _

/-- C3 witness: a single code file produces its pair, which is well-formed,
and an input without a files list equals the fallback extraction. -/
theorem C3_read_many_extraction_witness :
    (("src/Foo.ts", "Foo") ∈ extractFilesFromReadMany (some [some "src/Foo.ts"]) [] ∧
     CODE_EXTENSIONS.contains (extname "src/Foo.ts") = true ∧
     "Foo" = stripDotWordSuffix (basename "src/Foo.ts") ∧ 3 ≤ "Foo".length) ∧
    extractFilesFromReadMany none [⟨"text", some "@src/Foo.ts"⟩] =
      extractFromAtLines [⟨"text", some "@src/Foo.ts"⟩] :=
  ⟨⟨by decide,
    (C3_read_many_extraction (some [some "src/Foo.ts"]) [] []).1
      ("src/Foo.ts", "Foo") (by decide)⟩,
   (C3_read_many_extraction none [⟨"text", some "@src/Foo.ts"⟩] []).2.2.1 rfl⟩

lemma contains_iff_mem {α : Type} [BEq α] [LawfulBEq α] {l : List α} {a : α} :
    l.contains a = true ↔ a ∈ l := by
  simp [List.contains, List.elem_iff]

lemma dedupFirstAux_spec (l : List String) : ∀ seen : List String,
    (dedupFirstAux seen l).Nodup ∧ ∀ x ∈ dedupFirstAux seen l, x ∉ seen := by
  induction l with
  | nil => intro seen; simp [dedupFirstAux]
  | cons x xs ih =>
    intro seen
    by_cases h : seen.contains x = true
    · simp only [dedupFirstAux, if_pos h]
      exact ih seen
    · simp only [dedupFirstAux, if_neg h]
      obtain ⟨hnd, havoid⟩ := ih (x :: seen)
      refine ⟨List.nodup_cons.2 ⟨?_, hnd⟩, ?_⟩
      · intro hx
        exact havoid x hx (List.mem_cons_self x seen)
      · intro y hy
        rcases List.mem_cons.1 hy with rfl | hy2
        · intro hyseen
          exact h (contains_iff_mem.2 hyseen)
        · intro hyseen
          exact havoid y hy2 (List.mem_cons_of_mem x hyseen)

lemma dedupFirst_nodup (l : List String) : (dedupFirst l).Nodup :=
  (dedupFirstAux_spec l []).1

lemma dispatch_sub (cache cands : List String) (k : Nat) :
    List.Sublist (dispatchBatch cache cands k) cands :=
  (List.take_sublist _ _).trans (List.filter_sublist _)

lemma dispatchBatch_not_mem_of_cached (cache cands : List String) (k : Nat) (p : String)
    (h : p ∈ cache) : p ∉ dispatchBatch cache cands k := by
  intro hmem
  have h1 : p ∈ cands.filter (fun q => !(cache.contains q)) := List.mem_of_mem_take hmem
  have h2 := (List.mem_filter.1 h1).2
  have h3 : cache.contains p = false := by simpa using h2
  rw [← contains_iff_mem, h3] at h
  cases h

lemma dispatchBatch_two (cache cands : List String) (k k2 : Nat) (h : cands.Nodup)
    (p : String) :
    (dispatchBatch cache cands k).count p +
      (dispatchBatch (cache ++ dispatchBatch cache cands k) cands k2).count p ≤ 1 := by
  have hnd1 : (dispatchBatch cache cands k).Nodup := (dispatch_sub cache cands k).nodup h
  by_cases hp : p ∈ dispatchBatch cache cands k
  · have h0 : p ∉ dispatchBatch (cache ++ dispatchBatch cache cands k) cands k2 :=
      dispatchBatch_not_mem_of_cached _ _ _ p (List.mem_append_right _ hp)
    have c2 := List.count_eq_zero.2 h0
    have c1 := List.nodup_iff_count_le_one.1 hnd1 p
    omega
  · have c1 := List.count_eq_zero.2 hp
    have hnd2 : (dispatchBatch (cache ++ dispatchBatch cache cands k) cands k2).Nodup :=
      (dispatch_sub _ cands k2).nodup h
    have c2 := List.nodup_iff_count_le_one.1 hnd2 p
    omega

lemma readManyFresh_snd_sub (cache : List String) (files : Option (List (Option String)))
    (content : List ContentBlock) :
    List.Sublist ((readManyFresh cache files content).map Prod.snd)
      ((extractFilesFromReadMany files content).map Prod.snd) :=
  ((List.take_sublist _ _).trans (List.filter_sublist _)).map Prod.snd

lemma readManyFresh_not_mem_of_cached (cache : List String)
    (files : Option (List (Option String))) (content : List ContentBlock) (p : String)
    (h : p ∈ cache) : p ∉ (readManyFresh cache files content).map Prod.snd := by
  intro hm
  obtain ⟨pr, hpr, hpr2⟩ := List.mem_map.1 hm
  have h1 : pr ∈ (extractFilesFromReadMany files content).filter
      (fun f => !(cache.contains f.2)) := List.mem_of_mem_take hpr
  have h2 := (List.mem_filter.1 h1).2
  have h3 : cache.contains pr.2 = false := by simpa using h2
  rw [hpr2] at h3
  rw [← contains_iff_mem, h3] at h
  cases h

lemma readManyFresh_two (cache : List String) (files : Option (List (Option String)))
    (content : List ContentBlock) (p : String) :
    ((readManyFresh cache files content).map Prod.snd).count p +
      ((readManyFresh (cache ++ (readManyFresh cache files content).map Prod.snd)
          files content).map Prod.snd).count p ≤ 1 := by
  have hnd : ((extractFilesFromReadMany files content).map Prod.snd).Nodup :=
    (rmFold_facts files content).2
  have hnd1 := (readManyFresh_snd_sub cache files content).nodup hnd
  by_cases hp : p ∈ (readManyFresh cache files content).map Prod.snd
  · have h0 := readManyFresh_not_mem_of_cached
      (cache ++ (readManyFresh cache files content).map Prod.snd) files content p
      (List.mem_append_right _ hp)
    have c2 := List.count_eq_zero.2 h0
    have c1 := List.nodup_iff_count_le_one.1 hnd1 p
    omega
  · have c1 := List.count_eq_zero.2 hp
    have hnd2 := (readManyFresh_snd_sub
      (cache ++ (readManyFresh cache files content).map Prod.snd) files content).nodup hnd
    have c2 := List.nodup_iff_count_le_one.1 hnd2 p
    omega

/-- C4: running the hook twice in a row on the same tool event issues at most
one lookup per distinct candidate across both runs combined, in both the
single-pattern branch (candidates deduplicated by exact string equality at
batch construction, cache-filtered, dispatched candidates added to the cache
before any lookup is awaited) and the `read_many` branch. -/
theorem C4_session_dedup (cache : List String) (toolName : String) (input : ToolInput)
    (content : List ContentBlock) (files : Option (List (Option String))) (p : String) :
    (dispatchBatch cache (singleCandidates toolName input content) 3).count p +
      (dispatchBatch
        (cache ++ dispatchBatch cache (singleCandidates toolName input content) 3)
        (singleCandidates toolName input content) 3).count p ≤ 1 ∧
    ((readManyFresh cache files content).map Prod.snd).count p +
      ((readManyFresh (cache ++ (readManyFresh cache files content).map Prod.snd)
          files content).map Prod.snd).count p ≤ 1 :=
  ⟨dispatchBatch_two cache (singleCandidates toolName input content) 3 3
    (dedupFirst_nodup _) p,
   readManyFresh_two cache files content p⟩

lemma stripQuotes_id (s : String) (h : ∀ c ∈ s.toList, isQuoteChar c = false) :
    stripQuotes s = s := by
  unfold stripQuotes
  have he : s.toList.filter (fun c => !(isQuoteChar c)) = s.toList :=
    List.filter_eq_self.2 (by intro a ha; simp [h a ha])
  rw [he, strMk_toList]

lemma stripRegexMeta_id (s : String) (h : ∀ c ∈ s.toList, isRegexMeta c = false) :
    stripRegexMeta s = s := by
  unfold stripRegexMeta
  have he : s.toList.filter (fun c => !(isRegexMeta c)) = s.toList :=
    List.filter_eq_self.2 (by intro a ha; simp [h a ha])
  rw [he, strMk_toList]

lemma bashScan_grep_arm (expr : String) (rest : List String)
    (hdash : jsStartsWith expr "-" = false) (hg : expr ≠ "grep") (hr : expr ≠ "rg") :
    ∀ flags : List String, (∀ f ∈ flags, jsStartsWith f "-" = true) →
      bashScan (flags ++ expr :: rest) true false =
        some (stripRegexMeta (stripQuotes expr)) := by
  intro flags
  induction flags with
  | nil =>
    intro _
    simp [bashScan, hg, hr, hdash]
  | cons f fs ih =>
    intro hf
    have hfd := hf f (List.mem_cons_self f fs)
    have hfg : f ≠ "grep" := by
      rintro rfl
      exact absurd hfd (by decide)
    have hfr : f ≠ "rg" := by
      rintro rfl
      exact absurd hfd (by decide)
    rw [List.cons_append]
    have step : bashScan (f :: (fs ++ expr :: rest)) true false =
        bashScan (fs ++ expr :: rest) true false := by
      simp [bashScan, hfg, hfr, hfd]
    rw [step]
    exact ih (fun x hx => hf x (List.mem_cons_of_mem f hx))

lemma splitWSGo_all_nonws (cs : List Char) (h : ∀ c ∈ cs, c.isWhitespace = false) :
    ∀ cur, splitWSGo cs cur false = [String.mk (cur.reverse ++ cs)] := by
  induction cs with
  | nil => intro cur; simp [splitWSGo]
  | cons c cs ih =>
    intro cur
    have hc := h c (List.mem_cons_self c cs)
    have step : splitWSGo (c :: cs) cur false = splitWSGo cs (c :: cur) false := by
      simp [splitWSGo, hc]
    rw [step, ih (fun x hx => h x (List.mem_cons_of_mem c hx)) (c :: cur)]
    simp

lemma splitWS_grep_expr (expr : String) (hne : expr ≠ "")
    (h : ∀ c ∈ expr.toList, c.isWhitespace = false) :
    splitWS ("grep " ++ expr) = ["grep", expr] := by
  have h0 : splitWS ("grep " ++ expr) = "grep" :: splitWSGo expr.toList [] true := rfl
  rw [h0]
  cases he : expr.toList with
  | nil =>
    have : expr = "" := by rw [← strMk_toList expr, he]
    exact absurd this hne
  | cons e es =>
    have hmem : ∀ c ∈ e :: es, c.isWhitespace = false := by rw [← he]; exact h
    have henw : e.isWhitespace = false := hmem e (List.mem_cons_self e es)
    have step : splitWSGo (e :: es) ([] : List Char) true = splitWSGo es [e] false := by
      simp [splitWSGo, henw]
    rw [step, splitWSGo_all_nonws es (fun x hx => hmem x (List.mem_cons_of_mem e hx)) [e]]
    have : String.mk (e :: es) = expr := by rw [← he, strMk_toList]
    simp [this]

/-- C5 counterexample: the universal claim over all commands containing
`grep <expr>` fails — in `cat foo.ts | grep hello` the cat/head/tail rule
fires first, so extraction yields `foo`, not the metacharacter-free,
length-5 grep expression `hello`. -/
theorem C5_grep_command_counterexample :
    extractPattern "bash" ⟨none, none, none, some "cat foo.ts | grep hello"⟩ = some "foo" ∧
    some "foo" ≠ (some "hello" : Option String) := ⟨by decide, by decide⟩

/-- C5 amended: the grep-rule extraction holds when the grep/rg invocation is
the first rule the scan reaches (in particular for commands beginning with
`grep`), and when the expression carries no quote characters (which would be
stripped): the first non-flag token after `grep` that is itself neither
`grep` nor `rg` is returned unchanged when free of regex metacharacters and
quotes and of length at least 3; for the structured grep tool the result is
the input pattern with all regex metacharacters stripped, `none` exactly when
the stripped pattern is shorter than 3 characters. -/
theorem C5_pattern_extraction (flags : List String) (expr : String) (rest : List String)
    (s : String) (g p c : Option String) :
    ((∀ f ∈ flags, jsStartsWith f "-" = true) →
     jsStartsWith expr "-" = false → expr ≠ "grep" → expr ≠ "rg" →
     stripQuotes expr = expr → stripRegexMeta expr = expr →
     bashScan ("grep" :: (flags ++ expr :: rest)) false false = some expr) ∧
    ((∀ ch ∈ expr.toList, ch.isWhitespace = false ∧ isRegexMeta ch = false ∧
        isQuoteChar ch = false) →
     expr ≠ "" → jsStartsWith expr "-" = false → expr ≠ "grep" → expr ≠ "rg" →
     3 ≤ expr.length →
     extractPattern "bash" ⟨none, none, none, some ("grep " ++ expr)⟩ = some expr) ∧
    (extractPattern "grep" ⟨some s, g, p, c⟩ =
      if 3 ≤ (stripRegexMeta s).length then some (stripRegexMeta s) else none) := by
  refine ⟨?_, ?_, ?_⟩
  · intro hf hdash hg hr hq hm
    have step : bashScan ("grep" :: (flags ++ expr :: rest)) false false =
        bashScan (flags ++ expr :: rest) true false := by
      simp [bashScan]
    rw [step, bashScan_grep_arm expr rest hdash hg hr flags hf, hq, hm]
  · intro hchars hne hdash hg hr hlen
    have hq : stripQuotes expr = expr :=
      stripQuotes_id expr (fun c hc => (hchars c hc).2.2)
    have hm : stripRegexMeta expr = expr :=
      stripRegexMeta_id expr (fun c hc => (hchars c hc).2.1)
    have hscan : bashScan (splitWS ("grep " ++ expr)) false false = some expr := by
      rw [splitWS_grep_expr expr hne (fun c hc => (hchars c hc).1)]
      have step : bashScan ["grep", expr] false false =
          bashScan (([] : List String) ++ expr :: []) true false := by
        simp [bashScan]
      rw [step, bashScan_grep_arm expr [] hdash hg hr [] (by simp), hq, hm]
    have hred : extractPattern "bash" ⟨none, none, none, some ("grep " ++ expr)⟩ =
        (match bashScan (splitWS ("grep " ++ expr)) false false with
         | some q => if q.length < 3 then none else some q
         | none => none) := rfl
    rw [hred, hscan]
    simp [Nat.not_lt.2 hlen]
  · by_cases hs : s = ""
    · subst hs
      rfl
    · have hred : extractPattern "grep" ⟨some s, g, p, c⟩ =
          (match (if s = "" then none else some (stripRegexMeta s)) with
           | some q => if q.length < 3 then none else some q
           | none => none) := rfl
      rw [hred, if_neg hs]
      by_cases hl : 3 ≤ (stripRegexMeta s).length
      · simp [Nat.not_lt.2 hl, hl]
      · simp only [if_pos (Nat.lt_of_not_le hl), if_neg hl]

/-- C5 witness: a flagged grep command extracts its expression unchanged at
both the scan and the extractor level, and the structured grep tool strips
the metacharacter from `with*draw`. -/
theorem C5_pattern_extraction_witness :
    bashScan ["grep", "-i", "hello"] false false = some "hello" ∧
    extractPattern "bash" ⟨none, none, none, some "grep hello"⟩ = some "hello" ∧
    extractPattern "grep" ⟨some "with*draw", none, none, none⟩ = some "withdraw" :=
  ⟨(C5_pattern_extraction ["-i"] "hello" [] "" none none none).1 (by decide) (by decide)
      (by decide) (by decide) (by decide) (by decide),
   (C5_pattern_extraction [] "hello" [] "" none none none).2.1 (by decide) (by decide)
      (by decide) (by decide) (by decide) (by decide),
   ((C5_pattern_extraction [] "x" [] "with*draw" none none none).2.2).trans (by decide)⟩
